import Mathlib

/-!
Verification of the RSA core of the cryptoTIP repository.

The Python modules `rsa_math.py`, `rsa_keys.py` and `rsa_codec.py` are
shallowly embedded below.  Python integers are modelled as `Int` (or `Nat`
where the source only ever handles non-negative values), Python `%` on
integers is floor modulus, i.e. `Int.fmod`, and Python `//` is floor
division, i.e. `Int.fdiv`.  Functions that can raise are modelled with
`Option` or with an explicit result type carrying the file-store state.
-/

namespace PyInt

/-- Bounds of `Int.fmod` for a negative divisor: Python's `a % b` with
`b < 0` lies in `(b, 0]`.  Proved by cases on the constructors of the
core definition of `Int.fmod`. -/
theorem fmod_neg_bounds (a : Int) {b : Int} (hb : b < 0) :
    b < a.fmod b ∧ a.fmod b ≤ 0 := by
  obtain ⟨n, rfl⟩ : ∃ n : Nat, b = Int.negSucc n := by
    cases b with
    | ofNat m =>
      rw [Int.ofNat_eq_natCast] at hb
      exact absurd hb (Int.not_lt.mpr (Int.natCast_nonneg m))
    | negSucc n => exact ⟨n, rfl⟩
  cases a with
  | ofNat m =>
    cases m with
    | zero =>
      have h0 : (Int.ofNat 0).fmod (Int.negSucc n) = 0 := rfl
      rw [h0, Int.negSucc_eq]
      constructor <;> omega
    | succ m =>
      have h1 : (Int.ofNat (m + 1)).fmod (Int.negSucc n) =
          Int.subNatNat (m % (n + 1)) n := rfl
      have h2 : m % (n + 1) < n + 1 := Nat.mod_lt m (Nat.succ_pos n)
      rw [h1, Int.subNatNat_eq_coe, Int.negSucc_eq]
      constructor <;> omega
  | negSucc m =>
    have h1 : (Int.negSucc m).fmod (Int.negSucc n) =
        -Int.ofNat ((m + 1) % (n + 1)) := rfl
    have h2 : (m + 1) % (n + 1) < n + 1 := Nat.mod_lt (m + 1) (Nat.succ_pos n)
    rw [h1, Int.negSucc_eq, Int.ofNat_eq_natCast]
    constructor <;> omega

/-- Strict decrease of the absolute value under floor modulus, used for the
termination of the Euclidean loops below. -/
theorem natAbs_fmod_lt (a : Int) {b : Int} (hb : b ≠ 0) :
    (a.fmod b).natAbs < b.natAbs := by
  rcases lt_or_gt_of_ne hb with hneg | hpos
  · have h := fmod_neg_bounds a hneg
    omega
  · have h1 : a.fmod b = a % b := Int.fmod_eq_emod a (le_of_lt hpos)
    have h2 : 0 ≤ a % b := Int.emod_nonneg a hb
    have h3 : a % b < b := Int.emod_lt_of_pos a hpos
    omega

/-- Floor modulus of natural numbers is the natural modulus. -/
theorem fmod_natCast (a b : Nat) : Int.fmod (a : Int) (b : Int) = ((a % b : Nat) : Int) := by
  rw [Int.fmod_eq_emod _ (Int.natCast_nonneg b)]
  exact (Int.natCast_mod a b).symm

end PyInt

namespace RsaMath

/-- Embedding of `rsa_math.gcd`:
`while b != 0: a, b = b, a % b; return a` with Python floor modulus. -/
def gcd (a b : Int) : Int :=
  if b = 0 then a else gcd b (a.fmod b)
termination_by b.natAbs
decreasing_by exact PyInt.natAbs_fmod_lt a (by assumption)

/-- Embedding of `rsa_math.extended_gcd`: the recursive extended Euclidean
algorithm, base case `b = 0` returning `(a, 1, 0)`, recursive case
`g, x1, y1 = extended_gcd(b, a % b); x = y1; y = x1 - (a // b) * y1`. -/
def extended_gcd (a b : Int) : Int × Int × Int :=
  if b = 0 then (a, 1, 0)
  else
    let r := extended_gcd b (a.fmod b)
    (r.1, r.2.2, r.2.1 - (a.fdiv b) * r.2.2)
termination_by b.natAbs
decreasing_by exact PyInt.natAbs_fmod_lt a (by assumption)

/-- Embedding of `rsa_math.modinv`: `g, x, _ = extended_gcd(a, m);
if g != 1: raise ValueError; return x % m`.  The raise is modelled by
`none`. -/
def modinv (a m : Int) : Option Int :=
  let r := extended_gcd a m
  if r.1 ≠ 1 then none else some (r.2.1.fmod m)

/-- Embedding of `rsa_math.is_prime`: trial division.  The Python loop
`for i in range(3, isqrt(n) + 1, 2)` is the list
`List.range' 3 ((Nat.sqrt n - 1) / 2) 2` (the odd numbers `3, 5, ...`
up to `isqrt n`), and the early-exit loop is `List.all`. -/
def is_prime (n : Nat) : Bool :=
  if n ≤ 1 then false
  else if n ≤ 3 then true
  else if n % 2 = 0 then false
  else (List.range' 3 ((Nat.sqrt n - 1) / 2) 2).all (fun i => n % i != 0)

/-- Divisibility and greatest-common-divisor properties of the embedded
`gcd`, established together by strong induction on `b.natAbs`. -/
theorem gcd_props (a b : Int) :
    (gcd a b ∣ a) ∧ (gcd a b ∣ b) ∧
    (∀ c : Int, c ∣ a → c ∣ b → c ∣ gcd a b) ∧
    (0 < b → 0 ≤ gcd a b) ∧ (b = 0 → gcd a b = a) := by
  generalize hn : b.natAbs = n
  induction n using Nat.strong_induction_on generalizing a b with
  | _ n ih =>
    by_cases hb : b = 0
    · subst hb
      rw [gcd, if_pos rfl]
      exact ⟨dvd_refl a, dvd_zero a, fun c hca _ => hca, fun h => absurd h (lt_irrefl 0),
        fun _ => rfl⟩
    · rw [gcd, if_neg hb]
      have hlt : (a.fmod b).natAbs < n := hn ▸ PyInt.natAbs_fmod_lt a hb
      obtain ⟨ih1, ih2, ih3, ih4, ih5⟩ := ih (a.fmod b).natAbs hlt b (a.fmod b) rfl
      have hsplit : a.fmod b + b * a.fdiv b = a := Int.fmod_add_fdiv a b
      refine ⟨?_, ih1, ?_, ?_, fun h => absurd h hb⟩
      · have : gcd b (a.fmod b) ∣ a.fmod b + b * a.fdiv b :=
          dvd_add ih2 (Dvd.dvd.mul_right ih1 _)
        rwa [hsplit] at this
      · intro c hca hcb
        refine ih3 c hcb ?_
        have : c ∣ a - b * a.fdiv b := dvd_sub hca (Dvd.dvd.mul_right hcb _)
        rwa [← Int.fmod_def] at this
      · intro hbpos
        by_cases hf : a.fmod b = 0
        · rw [hf] at ih5 ⊢
          rw [ih5 rfl]
          exact le_of_lt hbpos
        · have hfpos : 0 < a.fmod b :=
            lt_of_le_of_ne (Int.fmod_nonneg' a hbpos) (Ne.symm hf)
          exact ih4 hfpos

/-- Absolute value of the embedded `gcd` is the mathematical gcd. -/
theorem gcd_natAbs (a b : Int) : (gcd a b).natAbs = Int.gcd a b := by
  obtain ⟨h1, h2, h3, _, _⟩ := gcd_props a b
  have := Int.gcd_greatest (d := ((gcd a b).natAbs : Int))
    (Int.natCast_nonneg _)
    (Int.natAbs_dvd.mpr h1) (Int.natAbs_dvd.mpr h2)
    (fun e hea heb => Int.dvd_natAbs.mpr (h3 e hea heb))
  exact_mod_cast this

/-- Unfolding equation of `gcd` when the loop exits. -/
theorem gcd_zero (a : Int) : gcd a 0 = a := by
  rw [gcd, if_pos rfl]

/-- Unfolding equation of `gcd` for one loop iteration. -/
theorem gcd_step (a b : Int) (hb : b ≠ 0) : gcd a b = gcd b (a.fmod b) := by
  rw [gcd, if_neg hb]

/-- Unfolding equation of `extended_gcd` at the base case. -/
theorem extended_gcd_zero (a : Int) : extended_gcd a 0 = (a, 1, 0) := by
  rw [extended_gcd, if_pos rfl]

/-- Unfolding equation of `extended_gcd` at the recursive case. -/
theorem extended_gcd_step (a b : Int) (hb : b ≠ 0) :
    extended_gcd a b = ((extended_gcd b (a.fmod b)).1, (extended_gcd b (a.fmod b)).2.2,
      (extended_gcd b (a.fmod b)).2.1 - (a.fdiv b) * (extended_gcd b (a.fmod b)).2.2) := by
  rw [extended_gcd, if_neg hb]

/-- On natural numbers the embedded `gcd` agrees with `Nat.gcd`; this
justifies using `Nat.gcd` in the key-generation pipeline, where all
arguments are non-negative. -/
theorem gcd_natCast (a b : Nat) : gcd (a : Int) (b : Int) = ((Nat.gcd a b : Nat) : Int) := by
  induction b using Nat.strong_induction_on generalizing a with
  | _ b ih =>
    by_cases hb : b = 0
    · subst hb
      simp [gcd_zero]
    · have hbz : (b : Int) ≠ 0 := by exact_mod_cast hb
      rw [gcd_step _ _ hbz, PyInt.fmod_natCast, ih (a % b) (Nat.mod_lt a (Nat.pos_of_ne_zero hb))]
      congr 1
      rw [Nat.gcd_comm b (a % b), ← Nat.gcd_rec b a, Nat.gcd_comm b a]

/-- Bezout identity and gcd agreement for the embedded `extended_gcd`,
by strong induction on `b.natAbs`. -/
theorem extended_gcd_props (a b : Int) :
    a * (extended_gcd a b).2.1 + b * (extended_gcd a b).2.2 = (extended_gcd a b).1 ∧
    (extended_gcd a b).1 = gcd a b ∧
    (b = 0 → extended_gcd a b = (a, 1, 0)) := by
  generalize hn : b.natAbs = n
  induction n using Nat.strong_induction_on generalizing a b with
  | _ n ih =>
    by_cases hb : b = 0
    · subst hb
      rw [extended_gcd_zero, gcd_zero]
      refine ⟨by ring, rfl, fun _ => rfl⟩
    · have hlt : (a.fmod b).natAbs < n := hn ▸ PyInt.natAbs_fmod_lt a hb
      obtain ⟨ihBez, ihG, _⟩ := ih (a.fmod b).natAbs hlt b (a.fmod b) rfl
      rw [extended_gcd_step a b hb]
      have hm : a.fmod b = a - b * a.fdiv b := Int.fmod_def a b
      refine ⟨by linear_combination ihBez - (extended_gcd b (a.fmod b)).2.2 * hm, ?_,
        fun h => absurd h hb⟩
      rw [ihG, gcd_step a b hb]

/-- Behaviour of the embedded `modinv` for a positive modulus: it fails
exactly when `gcd(a, m) ≠ 1`, and otherwise returns the canonical
representative of the modular inverse. -/
theorem modinv_props (a m : Int) (hm : 0 < m) :
    (modinv a m = none ↔ Int.gcd a m ≠ 1) ∧
    (∀ x, modinv a m = some x → 0 ≤ x ∧ x < m ∧ (a * x) % m = 1 % m) := by
  obtain ⟨hBez, hG, _⟩ := extended_gcd_props a m
  have hsign : 0 ≤ gcd a m := (gcd_props a m).2.2.2.1 hm
  have habs : (gcd a m).natAbs = Int.gcd a m := gcd_natAbs a m
  have hval : gcd a m = (Int.gcd a m : Int) := by
    rw [← habs, Int.natAbs_of_nonneg hsign]
  have hone : (extended_gcd a m).1 = 1 ↔ Int.gcd a m = 1 := by
    rw [hG, hval]
    exact_mod_cast Iff.rfl
  constructor
  · unfold modinv
    by_cases hg : (extended_gcd a m).1 = 1
    · simp [hg, hone.mp hg]
    · simp only [if_pos (by simpa using hg)]
      simp [hone.not.mp hg]
  · intro x hx
    unfold modinv at hx
    by_cases hg : (extended_gcd a m).1 = 1
    · rw [if_neg (by simpa using hg)] at hx
      have hxval : x = (extended_gcd a m).2.1.fmod m := by
        exact (Option.some_injective _ hx.symm)
      subst hxval
      refine ⟨Int.fmod_nonneg' _ hm, Int.fmod_lt_of_pos _ hm, ?_⟩
      set x0 := (extended_gcd a m).2.1 with hx0
      have hfe : x0.fmod m = x0 % m := Int.fmod_eq_emod x0 (le_of_lt hm)
      have step1 : (a * x0.fmod m) % m = (a * x0) % m := by
        rw [hfe, Int.mul_emod, Int.emod_emod, ← Int.mul_emod]
      have step2 : a * x0 = 1 + m * (-(extended_gcd a m).2.2) := by
        rw [hg] at hBez
        linear_combination hBez
      rw [step1, step2, Int.add_mul_emod_self_left]
    · rw [if_pos (by simpa using hg)] at hx
      exact absurd hx (by simp)

/-- Correctness of the trial-division primality test: acceptance implies
primality. -/
theorem is_prime_correct {n : Nat} (h : is_prime n = true) : Nat.Prime n := by
  unfold is_prime at h
  by_cases h1 : n ≤ 1
  · rw [if_pos h1] at h
    exact absurd h (by simp)
  rw [if_neg h1] at h
  by_cases h2 : n ≤ 3
  · have : n = 2 ∨ n = 3 := by omega
    rcases this with rfl | rfl
    · exact Nat.prime_two
    · exact Nat.prime_three
  rw [if_neg h2] at h
  by_cases h3 : n % 2 = 0
  · rw [if_pos h3] at h
    exact absurd h (by simp)
  rw [if_neg h3] at h
  · rw [Nat.prime_def_le_sqrt]
    refine ⟨by omega, fun m hm2 hms hdvd => ?_⟩
    by_cases hme : m % 2 = 0
    · have h2n : 2 ∣ n := dvd_trans (Nat.dvd_of_mod_eq_zero hme) hdvd
      have := Nat.mod_eq_zero_of_dvd h2n
      omega
    · have hm3 : 3 ≤ m := by omega
      have hmem : m ∈ List.range' 3 ((Nat.sqrt n - 1) / 2) 2 := by
        rw [List.mem_range']
        refine ⟨(m - 3) / 2, ?_, ?_⟩ <;> omega
      have hall := List.all_eq_true.mp h m hmem
      have hndvd : n % m ≠ 0 := by simpa using hall
      exact hndvd (Nat.mod_eq_zero_of_dvd hdvd)

/-- C5 counterexample: on input `(4, -6)` the embedded `gcd` returns `-2`,
a negative value, refuting the claim that the result is always
non-negative. -/
theorem gcd_returns_negative_on_4_neg6 : gcd 4 (-6) = -2 ∧ gcd 4 (-6) < 0 := by
  have e1 : Int.fmod 4 (-6) = -2 := by decide
  have e2 : Int.fmod (-6) (-2) = 0 := by decide
  have h : gcd 4 (-6) = -2 := by
    rw [gcd_step 4 (-6) (by decide), e1, gcd_step (-6) (-2) (by decide), e2, gcd_zero]
  exact ⟨h, by rw [h]; decide⟩

/-- C5 (amended): `gcd` terminates on all integer inputs and returns a
common divisor of `a` and `b` whose absolute value is `gcd(|a|, |b|)`;
the result is non-negative whenever `b > 0`, and when `b = 0` it is `a`
itself (so non-negative inputs give non-negative results, and
`gcd(0, 0) = 0`), but for some negative inputs it is negative. -/
theorem gcd_common_divisor_spec (a b : Int) :
    gcd a b ∣ a ∧ gcd a b ∣ b ∧ (gcd a b).natAbs = Int.gcd a b ∧
    (0 < b → 0 ≤ gcd a b) ∧ (b = 0 → gcd a b = a) ∧ gcd 0 0 = 0 := by
  obtain ⟨h1, h2, _, h4, h5⟩ := gcd_props a b
  exact ⟨h1, h2, gcd_natAbs a b, h4, h5, (gcd_props 0 0).2.2.2.2 rfl⟩

/-- Witness for C5 at the concrete inputs `(4, 6)` and `(4, 0)`. -/
theorem gcd_common_divisor_spec_witness :
    gcd 4 6 ∣ 4 ∧ 0 ≤ gcd 4 6 ∧ gcd 4 0 = 4 :=
  ⟨(gcd_common_divisor_spec 4 6).1,
   (gcd_common_divisor_spec 4 6).2.2.2.1 (by decide),
   (gcd_common_divisor_spec 4 0).2.2.2.2.1 rfl⟩

/-- C6: `extended_gcd` satisfies the Bezout identity `a*x + b*y = g`
where `g` agrees with the module's own `gcd`, and the base case `b = 0`
returns exactly `(a, 1, 0)`. -/
theorem extended_gcd_bezout_spec (a b : Int) :
    a * (extended_gcd a b).2.1 + b * (extended_gcd a b).2.2 = (extended_gcd a b).1 ∧
    (extended_gcd a b).1 = gcd a b ∧
    (b = 0 → extended_gcd a b = (a, 1, 0)) :=
  extended_gcd_props a b

/-- Witness for C6 at the concrete input `(6, 0)`. -/
theorem extended_gcd_bezout_spec_witness : extended_gcd 6 0 = (6, 1, 0) :=
  (extended_gcd_bezout_spec 6 0).2.2 rfl

/-- Evaluation of `extended_gcd 1 1`, used by the C7 counterexample. -/
theorem extended_gcd_one_one : extended_gcd 1 1 = (1, 0, 1) := by
  rw [extended_gcd_step 1 1 (by decide), (by decide : Int.fmod 1 1 = 0), extended_gcd_zero]
  decide

/-- C7 counterexample: `m = 1` is a positive modulus and
`gcd(1, 1) = 1`, yet `modinv 1 1` returns `0` and `(1 * 0) % 1 = 0 ≠ 1`,
refuting the literal postcondition `(a * x) % m == 1`. -/
theorem modinv_modulus_one_counterexample :
    modinv 1 1 = some 0 ∧ Int.gcd 1 1 = 1 ∧ ¬((1 * 0 : Int) % 1 = 1) := by
  have h : modinv 1 1 = some 0 := by
    unfold modinv
    rw [extended_gcd_one_one]
    decide
  exact ⟨h, by decide, by decide⟩

/-- C7 (amended): for every integer `a` and positive modulus `m`,
`modinv` fails exactly when `gcd(a, m) ≠ 1`, and otherwise returns
`x ∈ [0, m)` with `(a * x) % m = 1 % m` (for `m > 1` this is the literal
`(a * x) % m == 1`; for `m = 1` the right-hand side is `0`). -/
theorem modinv_inverse_spec (a m : Int) (hm : 0 < m) :
    (modinv a m = none ↔ Int.gcd a m ≠ 1) ∧
    (∀ x, modinv a m = some x → 0 ≤ x ∧ x < m ∧ (a * x) % m = 1 % m) :=
  modinv_props a m hm

/-- Evaluation of `extended_gcd 1 2` and of `modinv 1 2`, used by the C7
witness. -/
theorem modinv_one_two : modinv 1 2 = some 1 := by
  have h21 : extended_gcd 2 1 = (1, 0, 1) := by
    rw [extended_gcd_step 2 1 (by decide), (by decide : Int.fmod 2 1 = 0), extended_gcd_zero]
    decide
  have h12 : extended_gcd 1 2 = (1, 1, 0) := by
    rw [extended_gcd_step 1 2 (by decide), (by decide : Int.fmod 1 2 = 1), h21]
    decide
  unfold modinv
  rw [h12]
  decide

/-- Witness for C7 at the concrete input `(1, 2)`. -/
theorem modinv_inverse_spec_witness :
    (0 : Int) ≤ 1 ∧ (1 : Int) < 2 ∧ ((1 : Int) * 1) % 2 = 1 % 2 :=
  (modinv_inverse_spec 1 2 (by decide)).2 1 modinv_one_two

end RsaMath

namespace RsaKeys

/-- Embedding of the fallback exponent search in `generate_keypair`:
`e = 3; while e < phi and gcd(e, phi) != 1: e += 2`.  The call
`Nat.gcd` stands for `rsa_math.gcd` on non-negative arguments, which is
justified by `RsaMath.gcd_natCast`. -/
def findOddE (e phi : Nat) : Nat :=
  if h : e < phi ∧ Nat.gcd e phi ≠ 1 then findOddE (e + 2) phi else e
termination_by phi - e
decreasing_by omega

/-- Embedding of the exponent-selection phase of `generate_keypair`:
`e = 65537; if gcd(e, phi) != 1: e = 3; while ...; if gcd(e, phi) != 1:
raise ValueError`.  The raise is modelled by `none`. -/
def selectE (phi : Nat) : Option Nat :=
  if Nat.gcd 65537 phi ≠ 1 then
    let e := findOddE 3 phi
    if Nat.gcd e phi ≠ 1 then none else some e
  else some 65537

/-- Embedding of the deterministic tail of `generate_keypair` after the
two random primes `p` and `q` have been produced:
`n = p * q; phi = (p - 1) * (q - 1)`, exponent selection, and
`d = modinv(e, phi)`.  Failures of either step are propagated as
`none`. -/
def keypairFrom (p q : Nat) : Option ((Nat × Nat) × (Nat × Nat)) :=
  let n := p * q
  let phi := (p - 1) * (q - 1)
  match selectE phi with
  | none => none
  | some e =>
    match RsaMath.modinv (e : Int) (phi : Int) with
    | none => none
    | some d => some ((n, e), (n, d.toNat))

/-- Characterisation of the outputs of `rsa_math.generate_prime(bits)`:
the candidates are exactly the numbers below `2 ^ bits` with the top bit
and the low bit forced to `1` (`candidate = getrandbits(bits) | 1 |
(1 << (bits - 1))`), and a candidate is returned once `is_prime` accepts
it. -/
def IsGeneratedPrime (bits p : Nat) : Prop :=
  RsaMath.is_prime p = true ∧ p % 2 = 1 ∧ 2 ^ (bits - 1) ≤ p ∧ p < 2 ^ bits

/-- Unfolding equation for `findOddE` when the loop continues. -/
theorem findOddE_step (e phi : Nat) (h : e < phi ∧ Nat.gcd e phi ≠ 1) :
    findOddE e phi = findOddE (e + 2) phi := by
  rw [findOddE, dif_pos h]

/-- Unfolding equation for `findOddE` when the loop exits. -/
theorem findOddE_exit (e phi : Nat) (h : ¬(e < phi ∧ Nat.gcd e phi ≠ 1)) :
    findOddE e phi = e := by
  rw [findOddE, dif_neg h]

/-- The exponent search never returns less than its starting value. -/
theorem findOddE_ge : ∀ (k e phi : Nat), phi - e = k → e ≤ findOddE e phi := by
  intro k
  induction k using Nat.strong_induction_on with
  | _ k ih =>
    intro e phi hk
    by_cases h : e < phi ∧ Nat.gcd e phi ≠ 1
    · rw [findOddE_step e phi h]
      have hrec := ih (phi - (e + 2)) (by omega) (e + 2) phi rfl
      omega
    · rw [findOddE_exit e phi h]

/-- If some odd candidate `c` with `e ≤ c < phi` is coprime to `phi`,
the linear search starting at the odd value `e` stops at a coprime value
strictly below `phi`. -/
theorem findOddE_first : ∀ (k e phi : Nat), phi - e = k → e % 2 = 1 →
    (∃ c, e ≤ c ∧ c < phi ∧ c % 2 = 1 ∧ Nat.gcd c phi = 1) →
    Nat.gcd (findOddE e phi) phi = 1 ∧ findOddE e phi < phi := by
  intro k
  induction k using Nat.strong_induction_on with
  | _ k ih =>
    intro e phi hk hodd hex
    obtain ⟨c, hce, hcphi, hcodd, hcgcd⟩ := hex
    by_cases h : e < phi ∧ Nat.gcd e phi ≠ 1
    · rw [findOddE_step e phi h]
      have hcne : c ≠ e := fun hc => h.2 (hc ▸ hcgcd)
      have hc2 : e + 2 ≤ c := by omega
      exact ih (phi - (e + 2)) (by omega) (e + 2) phi rfl (by omega)
        ⟨c, hc2, hcphi, hcodd, hcgcd⟩
    · rw [findOddE_exit e phi h]
      have he : e < phi := by omega
      rcases Decidable.not_and_iff_or_not.mp h with hlt | hgcd
      · exact absurd he hlt
      · exact ⟨Decidable.not_not.mp hgcd, he⟩

/-- An even totient `phi ≥ 4` always has an odd coprime candidate
strictly below it, namely `phi - 1`. -/
theorem exists_coprime_candidate (phi : Nat) (heven : phi % 2 = 0) (h4 : 4 ≤ phi) :
    ∃ c, 3 ≤ c ∧ c < phi ∧ c % 2 = 1 ∧ Nat.gcd c phi = 1 := by
  refine ⟨phi - 1, by omega, by omega, ?_, ?_⟩
  · omega
  · have hmod : phi % (phi - 1) = 1 := by
      have h1 : phi = (phi - 1) + 1 := by omega
      nth_rewrite 1 [h1]
      rw [Nat.add_mod_left]
      exact Nat.mod_eq_of_lt (by omega)
    rw [Nat.gcd_rec, hmod]
    exact Nat.gcd_one_left _

/-- Output characterisation of `selectE`: a returned exponent is coprime
to `phi` and follows the two-phase policy (fixed `65537` first, linear
search otherwise). -/
theorem selectE_props (phi e : Nat) (h : selectE phi = some e) :
    Nat.gcd e phi = 1 ∧
    e = (if Nat.gcd 65537 phi = 1 then 65537 else findOddE 3 phi) := by
  unfold selectE at h
  by_cases h65 : Nat.gcd 65537 phi ≠ 1
  · rw [if_pos h65] at h
    by_cases hf : Nat.gcd (findOddE 3 phi) phi ≠ 1
    · simp [hf] at h
    · simp only [if_neg hf, Option.some.injEq] at h
      subst h
      exact ⟨Decidable.not_not.mp hf, by rw [if_neg (by simpa using h65)]⟩
  · rw [if_neg h65] at h
    have he : e = 65537 := by simpa using h.symm
    subst he
    exact ⟨Decidable.not_not.mp h65, by rw [if_pos (Decidable.not_not.mp h65)]⟩

/-- Fermat-Euler step of the RSA correctness proof: for a prime `p` and
any residue `m`, `m ^ (t * (p - 1) + 1) ≡ m (mod p)`. -/
theorem pow_totient_prime_identity (p : Nat) (hp : Nat.Prime p) (t m : Nat) :
    m ^ (t * (p - 1) + 1) ≡ m [MOD p] := by
  by_cases hdvd : p ∣ m
  · have h0 : m ≡ 0 [MOD p] := (Nat.modEq_zero_iff_dvd).mpr hdvd
    calc m ^ (t * (p - 1) + 1) ≡ 0 ^ (t * (p - 1) + 1) [MOD p] := h0.pow _
      _ = 0 := by rw [zero_pow]; omega
      _ ≡ m [MOD p] := h0.symm
  · have hcop : Nat.Coprime m p := ((Nat.Prime.coprime_iff_not_dvd hp).mpr hdvd).symm
    have heuler : m ^ p.totient ≡ 1 [MOD p] := Nat.ModEq.pow_totient hcop
    rw [Nat.totient_prime hp] at heuler
    calc m ^ (t * (p - 1) + 1) = (m ^ (p - 1)) ^ t * m := by
          rw [← pow_mul, ← pow_succ, Nat.mul_comm (p - 1) t]
      _ ≡ 1 ^ t * m [MOD p] := (heuler.pow t).mul_right m
      _ = m := by rw [one_pow, one_mul]

/-- RSA correctness core: for distinct primes `p`, `q` and any residue
`m`, `m ^ (t * φ + 1) ≡ m (mod p * q)` where `φ = (p - 1) * (q - 1)`. -/
theorem rsa_exponent_identity (p q t m : Nat) (hp : Nat.Prime p) (hq : Nat.Prime q)
    (hne : p ≠ q) : m ^ (t * ((p - 1) * (q - 1)) + 1) ≡ m [MOD p * q] := by
  have hcop : Nat.Coprime p q := (Nat.coprime_primes hp hq).mpr hne
  have hP : m ^ (t * ((p - 1) * (q - 1)) + 1) ≡ m [MOD p] := by
    have := pow_totient_prime_identity p hp (t * (q - 1)) m
    rwa [show t * (q - 1) * (p - 1) = t * ((p - 1) * (q - 1)) by ring] at this
  have hQ : m ^ (t * ((p - 1) * (q - 1)) + 1) ≡ m [MOD q] := by
    have := pow_totient_prime_identity q hq (t * (p - 1)) m
    rwa [show t * (p - 1) * (q - 1) = t * ((p - 1) * (q - 1)) by ring] at this
  exact (Nat.modEq_and_modEq_iff_modEq_mul hcop).mp ⟨hP, hQ⟩

/-- Structure of a successful `keypairFrom` run: the modulus is `p * q`,
the exponent obeys the selection policy, and `d` is the canonical modular
inverse of `e` modulo `φ`. -/
theorem keypairFrom_props (p q n n' e d : Nat) (hphi : 0 < (p - 1) * (q - 1))
    (hkp : keypairFrom p q = some ((n, e), (n', d))) :
    n = p * q ∧ n' = p * q ∧ selectE ((p - 1) * (q - 1)) = some e ∧
    d < (p - 1) * (q - 1) ∧ e * d ≡ 1 [MOD (p - 1) * (q - 1)] := by
  unfold keypairFrom at hkp
  simp only [] at hkp
  cases hsel : selectE ((p - 1) * (q - 1)) with
  | none => rw [hsel] at hkp; exact absurd hkp (by simp)
  | some e0 =>
    rw [hsel] at hkp
    simp only [] at hkp
    cases hmi : RsaMath.modinv (e0 : Int) (((p - 1) * (q - 1) : Nat) : Int) with
    | none => rw [hmi] at hkp; exact absurd hkp (by simp)
    | some d0 =>
      rw [hmi] at hkp
      simp only [Option.some.injEq, Prod.mk.injEq] at hkp
      obtain ⟨⟨hn, he⟩, hn', hd⟩ := hkp
      subst hn; subst hn'; subst he; subst hd
      have hmpos : (0 : Int) < (((p - 1) * (q - 1) : Nat) : Int) := by exact_mod_cast hphi
      obtain ⟨hd0, hdlt, hinv⟩ := (RsaMath.modinv_props _ _ hmpos).2 d0 hmi
      have hd0n : ((d0.toNat : Nat) : Int) = d0 := Int.toNat_of_nonneg hd0
      refine ⟨rfl, rfl, rfl, ?_, ?_⟩
      · have : (d0.toNat : Int) < (((p - 1) * (q - 1) : Nat) : Int) := by rw [hd0n]; exact hdlt
        exact_mod_cast this
      · have hcast : ((e0 * d0.toNat : Nat) : Int) % (((p - 1) * (q - 1) : Nat) : Int) =
            ((1 : Nat) : Int) % (((p - 1) * (q - 1) : Nat) : Int) := by
          push_cast
          rw [hd0n]
          simpa using hinv
        rw [← Int.natCast_mod, ← Int.natCast_mod] at hcast
        exact_mod_cast hcast

/-- Evaluation helper for `Nat.sqrt` at concrete inputs. -/
theorem sqrt_eq_of_bounds {a n : Nat} (h1 : a * a ≤ n) (h2 : n < (a + 1) * (a + 1)) :
    Nat.sqrt n = a :=
  (Nat.eq_sqrt.mpr ⟨h1, h2⟩).symm

/-- Evaluation of the trial-division test at `11`. -/
theorem is_prime_11 : RsaMath.is_prime 11 = true := by
  unfold RsaMath.is_prime
  rw [sqrt_eq_of_bounds (a := 3) (by norm_num) (by norm_num)]
  decide

/-- Evaluation of the trial-division test at `13`. -/
theorem is_prime_13 : RsaMath.is_prime 13 = true := by
  unfold RsaMath.is_prime
  rw [sqrt_eq_of_bounds (a := 3) (by norm_num) (by norm_num)]
  decide

/-- The prime `11` is a reachable output of `generate_prime(4)`. -/
theorem isGeneratedPrime_4_11 : IsGeneratedPrime 4 11 :=
  ⟨is_prime_11, by norm_num, by norm_num, by norm_num⟩

/-- The prime `13` is a reachable output of `generate_prime(4)`. -/
theorem isGeneratedPrime_4_13 : IsGeneratedPrime 4 13 :=
  ⟨is_prime_13, by norm_num, by norm_num, by norm_num⟩

/-- Evaluation of `extended_gcd 65537 120`, following the four steps of
the Euclidean recursion. -/
theorem extended_gcd_65537_120 : RsaMath.extended_gcd 65537 120 = (1, -7, 3823) := by
  have s1 : RsaMath.extended_gcd 17 1 = (1, 0, 1) := by
    rw [RsaMath.extended_gcd_step 17 1 (by decide), (by decide : Int.fmod 17 1 = 0),
      RsaMath.extended_gcd_zero]
    decide
  have s2 : RsaMath.extended_gcd 120 17 = (1, 1, -7) := by
    rw [RsaMath.extended_gcd_step 120 17 (by decide), (by decide : Int.fmod 120 17 = 1), s1]
    decide
  rw [RsaMath.extended_gcd_step 65537 120 (by decide), (by decide : Int.fmod 65537 120 = 17), s2]
  decide

/-- Evaluation of `modinv 65537 120`. -/
theorem modinv_65537_120 : RsaMath.modinv 65537 120 = some 113 := by
  unfold RsaMath.modinv
  rw [extended_gcd_65537_120]
  decide

/-- Evaluation of the deterministic key-pair construction on the primes
`11` and `13`: `n = 143`, `φ = 120`, `e = 65537` (already coprime to
`φ`), `d = 113`. -/
theorem keypairFrom_11_13 : keypairFrom 11 13 = some ((143, 65537), (143, 113)) := by
  have hsel : selectE ((11 - 1) * (13 - 1)) = some 65537 := by
    unfold selectE
    rw [if_neg (by decide)]
  have hmi : RsaMath.modinv ((65537 : Nat) : Int) (((11 - 1) * (13 - 1) : Nat) : Int) =
      some 113 := by
    rw [(by norm_num : (((11 - 1) * (13 - 1) : Nat) : Int) = 120),
      (by norm_num : ((65537 : Nat) : Int) = 65537)]
    exact modinv_65537_120
  simp only [keypairFrom, hsel, hmi]
  decide

/-- C2: for every key pair produced by `generate_keypair` and every
residue `m < n`, decrypting the encryption of `m` returns `m`:
`pow(pow(m, e, n), d, n) == m`. -/
theorem generated_keypair_pow_roundtrip (bits p q n e d : Nat) (hbits : 8 ≤ bits)
    (hp : IsGeneratedPrime (bits / 2) p) (hq : IsGeneratedPrime (bits / 2) q)
    (hqp : q ≠ p) (hkp : keypairFrom p q = some ((n, e), (n, d))) :
    ∀ m : Nat, m < n → (m ^ e % n) ^ d % n = m := by
  obtain ⟨hpp, hpodd, hplo, hphi2⟩ := hp
  obtain ⟨hqpr, hqodd, hqlo, hqhi⟩ := hq
  have hpprime := RsaMath.is_prime_correct hpp
  have hqprime := RsaMath.is_prime_correct hqpr
  have hhalf : 4 ≤ bits / 2 := by omega
  have hp8 : 8 ≤ p := le_trans (le_trans (by norm_num) (Nat.pow_le_pow_right
    (by norm_num) (by omega : 3 ≤ bits / 2 - 1))) hplo
  have hq8 : 8 ≤ q := le_trans (le_trans (by norm_num) (Nat.pow_le_pow_right
    (by norm_num) (by omega : 3 ≤ bits / 2 - 1))) hqlo
  have hphipos : 0 < (p - 1) * (q - 1) := by
    apply Nat.mul_pos <;> omega
  obtain ⟨hn, -, hselE, hdlt, hinv⟩ := keypairFrom_props p q n n e d hphipos hkp
  subst hn
  have hphige : 7 * 7 ≤ (p - 1) * (q - 1) := Nat.mul_le_mul (by omega) (by omega)
  have hmod1 : (e * d) % ((p - 1) * (q - 1)) = 1 := by
    have h2 : (e * d) % ((p - 1) * (q - 1)) = 1 % ((p - 1) * (q - 1)) := hinv
    rwa [Nat.mod_eq_of_lt (show 1 < (p - 1) * (q - 1) by omega)] at h2
  have hsplit : e * d = ((p - 1) * (q - 1)) * ((e * d) / ((p - 1) * (q - 1))) + 1 := by
    have := Nat.div_add_mod (e * d) ((p - 1) * (q - 1))
    omega
  intro m hm
  have hpow : (m ^ e % (p * q)) ^ d % (p * q) = (m ^ e) ^ d % (p * q) := by
    rw [← Nat.pow_mod]
  rw [hpow, ← pow_mul]
  have hED : m ^ (e * d) ≡ m [MOD p * q] := by
    rw [hsplit, Nat.mul_comm ((p - 1) * (q - 1)) ((e * d) / ((p - 1) * (q - 1)))]
    exact rsa_exponent_identity p q ((e * d) / ((p - 1) * (q - 1))) m hpprime hqprime hqp.symm
  have hfin : m ^ (e * d) % (p * q) = m % (p * q) := hED
  rw [hfin, Nat.mod_eq_of_lt hm]

/-- Witness for C2 at `bits = 8`, `p = 11`, `q = 13`, `m = 2`. -/
theorem generated_keypair_pow_roundtrip_witness : (2 ^ 65537 % 143) ^ 113 % 143 = 2 :=
  generated_keypair_pow_roundtrip 8 11 13 143 65537 113 (by norm_num)
    isGeneratedPrime_4_11 isGeneratedPrime_4_13 (by norm_num) keypairFrom_11_13 2 (by norm_num)

/-- C3 counterexample: at `bits = 8` the primes `11`, `13` are reachable,
and the generated public exponent is `65537`, which is not below
`φ(n) = 120`; the invariant `1 < e < φ(n)` fails. -/
theorem exponent_not_below_totient_at_8_bits :
    (8 : Nat) ≤ 8 ∧ IsGeneratedPrime (8 / 2) 11 ∧ IsGeneratedPrime (8 / 2) 13 ∧
    (13 : Nat) ≠ 11 ∧ keypairFrom 11 13 = some ((143, 65537), (143, 113)) ∧
    ¬(65537 < (11 - 1) * (13 - 1)) :=
  ⟨le_refl 8, isGeneratedPrime_4_11, isGeneratedPrime_4_13, by norm_num,
    keypairFrom_11_13, by norm_num⟩

/-- C3 (amended): the generated exponent always satisfies `1 < e` and
`gcd(e, φ(n)) = 1`; moreover `e < φ(n)` whenever the fallback search is
used, but the preferred fixed value `e = 65537` may reach or exceed
`φ(n)` at small bit sizes. -/
theorem exponent_bounds (bits p q n n' e d : Nat) (hbits : 8 ≤ bits)
    (hp : IsGeneratedPrime (bits / 2) p) (hq : IsGeneratedPrime (bits / 2) q)
    (_hqp : q ≠ p) (hkp : keypairFrom p q = some ((n, e), (n', d))) :
    1 < e ∧ Nat.gcd e ((p - 1) * (q - 1)) = 1 ∧
    (e = 65537 ∨ e < (p - 1) * (q - 1)) := by
  obtain ⟨hpp, hpodd, hplo, hphi2⟩ := hp
  obtain ⟨hqpr, hqodd, hqlo, hqhi⟩ := hq
  have hhalf : 4 ≤ bits / 2 := by omega
  have hp8 : 8 ≤ p := le_trans (le_trans (by norm_num) (Nat.pow_le_pow_right
    (by norm_num) (by omega : 3 ≤ bits / 2 - 1))) hplo
  have hq8 : 8 ≤ q := le_trans (le_trans (by norm_num) (Nat.pow_le_pow_right
    (by norm_num) (by omega : 3 ≤ bits / 2 - 1))) hqlo
  have hphipos : 0 < (p - 1) * (q - 1) := by
    apply Nat.mul_pos <;> omega
  obtain ⟨-, -, hselE, -, -⟩ := keypairFrom_props p q n n' e d hphipos hkp
  obtain ⟨hcop, hpolicy⟩ := selectE_props _ _ hselE
  have hphige : 7 * 7 ≤ (p - 1) * (q - 1) := Nat.mul_le_mul (by omega) (by omega)
  have hphieven : ((p - 1) * (q - 1)) % 2 = 0 := by
    have h2 : (2 : Nat) ∣ (p - 1) := by omega
    exact Nat.mod_eq_zero_of_dvd (Dvd.dvd.mul_right h2 (q - 1))
  by_cases h65 : Nat.gcd 65537 ((p - 1) * (q - 1)) = 1
  · rw [if_pos h65] at hpolicy
    subst hpolicy
    exact ⟨by norm_num, hcop, Or.inl rfl⟩
  · rw [if_neg h65] at hpolicy
    subst hpolicy
    have hstart : 3 ≤ findOddE 3 ((p - 1) * (q - 1)) :=
      findOddE_ge ((p - 1) * (q - 1) - 3) 3 ((p - 1) * (q - 1)) rfl
    have hfirst := findOddE_first ((p - 1) * (q - 1) - 3) 3 ((p - 1) * (q - 1)) rfl
      (by norm_num)
      (exists_coprime_candidate ((p - 1) * (q - 1)) hphieven (by omega))
    exact ⟨by omega, hcop, Or.inr hfirst.2⟩

/-- Witness for C3 (amended) at `bits = 8`, `p = 11`, `q = 13`. -/
theorem exponent_bounds_witness :
    1 < 65537 ∧ Nat.gcd 65537 ((11 - 1) * (13 - 1)) = 1 ∧
    ((65537 : Nat) = 65537 ∨ 65537 < (11 - 1) * (13 - 1)) :=
  exponent_bounds 8 11 13 143 143 65537 113 (by norm_num)
    isGeneratedPrime_4_11 isGeneratedPrime_4_13 (by norm_num) keypairFrom_11_13

/-- C4: the generated exponent is always coprime to `φ(n)` and follows
the deterministic two-phase policy (`65537` if coprime, otherwise the
linear search over odd candidates); generation fails with the
exponent-search-exhausted error when no coprime candidate below `φ`
exists — a situation that never arises for generated key pairs, since
`φ - 1` is always such a candidate. -/
theorem exponent_coprime_policy (bits p q n n' e d : Nat) (hbits : 8 ≤ bits)
    (hp : IsGeneratedPrime (bits / 2) p) (hq : IsGeneratedPrime (bits / 2) q)
    (_hqp : q ≠ p) (hkp : keypairFrom p q = some ((n, e), (n', d))) :
    Nat.gcd e ((p - 1) * (q - 1)) = 1 ∧
    e = (if Nat.gcd 65537 ((p - 1) * (q - 1)) = 1 then 65537
         else findOddE 3 ((p - 1) * (q - 1))) ∧
    ((¬∃ c, 3 ≤ c ∧ c < (p - 1) * (q - 1) ∧ c % 2 = 1 ∧
        Nat.gcd c ((p - 1) * (q - 1)) = 1) → keypairFrom p q = none) := by
  obtain ⟨hpp, hpodd, hplo, hphi2⟩ := hp
  obtain ⟨hqpr, hqodd, hqlo, hqhi⟩ := hq
  have hhalf : 4 ≤ bits / 2 := by omega
  have hp8 : 8 ≤ p := le_trans (le_trans (by norm_num) (Nat.pow_le_pow_right
    (by norm_num) (by omega : 3 ≤ bits / 2 - 1))) hplo
  have hq8 : 8 ≤ q := le_trans (le_trans (by norm_num) (Nat.pow_le_pow_right
    (by norm_num) (by omega : 3 ≤ bits / 2 - 1))) hqlo
  have hphipos : 0 < (p - 1) * (q - 1) := by
    apply Nat.mul_pos <;> omega
  obtain ⟨-, -, hselE, -, -⟩ := keypairFrom_props p q n n' e d hphipos hkp
  obtain ⟨hcop, hpolicy⟩ := selectE_props _ _ hselE
  have hphige : 7 * 7 ≤ (p - 1) * (q - 1) := Nat.mul_le_mul (by omega) (by omega)
  have hphieven : ((p - 1) * (q - 1)) % 2 = 0 := by
    have h2 : (2 : Nat) ∣ (p - 1) := by omega
    exact Nat.mod_eq_zero_of_dvd (Dvd.dvd.mul_right h2 (q - 1))
  refine ⟨hcop, hpolicy, fun hno => ?_⟩
  exact absurd (exists_coprime_candidate ((p - 1) * (q - 1)) hphieven (by omega)) hno

/-- Witness for C4 at `bits = 8`, `p = 11`, `q = 13`. -/
theorem exponent_coprime_policy_witness :
    Nat.gcd 65537 ((11 - 1) * (13 - 1)) = 1 ∧
    (65537 : Nat) = (if Nat.gcd 65537 ((11 - 1) * (13 - 1)) = 1 then 65537
      else findOddE 3 ((11 - 1) * (13 - 1))) := by
  have h := exponent_coprime_policy 8 11 13 143 143 65537 113 (by norm_num)
    isGeneratedPrime_4_11 isGeneratedPrime_4_13 (by norm_num) keypairFrom_11_13
  exact ⟨h.1, h.2.1⟩

end RsaKeys

namespace RsaCodec

/-- Embedding of `int.from_bytes(message.encode("utf-8"), byteorder="big")`:
a message is represented by the list of its UTF-8 bytes, and this folds
them into the big-endian integer value. -/
def bytesToNat (bs : List Nat) : Nat :=
  bs.foldl (fun acc b => acc * 256 + b) 0

/-- Embedding of
`message_int.to_bytes((message_int.bit_length() + 7) // 8, byteorder="big")`:
the minimal big-endian byte representation, which is the reversed list of
base-256 digits (empty for `0`). -/
def natToBytes (m : Nat) : List Nat :=
  (Nat.digits 256 m).reverse

/-- Continuation byte test for UTF-8 (`10xxxxxx`). -/
def contOk (b : Nat) : Bool := decide (128 ≤ b ∧ b < 192)

/-- Validity of a byte list as UTF-8, mirroring what
`bytes.decode("utf-8")` accepts (RFC 3629: no overlong forms, no
surrogates, at most `U+10FFFF`). -/
def validUtf8 : List Nat → Bool
  | [] => true
  | b :: rest =>
    if b < 128 then validUtf8 rest
    else if b < 194 then false
    else if b < 224 then
      match rest with
      | c1 :: rest' => contOk c1 && validUtf8 rest'
      | [] => false
    else if b < 240 then
      match rest with
      | c1 :: c2 :: rest' =>
        (if b = 224 then decide (160 ≤ c1 ∧ c1 < 192)
         else if b = 237 then decide (128 ≤ c1 ∧ c1 < 160)
         else contOk c1) && contOk c2 && validUtf8 rest'
      | _ => false
    else if b < 245 then
      match rest with
      | c1 :: c2 :: c3 :: rest' =>
        (if b = 240 then decide (144 ≤ c1 ∧ c1 < 192)
         else if b = 244 then decide (128 ≤ c1 ∧ c1 < 144)
         else contOk c1) && contOk c2 && contOk c3 && validUtf8 rest'
      | _ => false
    else false

/-- Embedding of `rsa_codec.rsa_encrypt`: encode the message bytes as a
big-endian integer `m`, raise (modelled by `none`) when `m >= n`, and
otherwise return `pow(m, e, n)`. -/
def rsa_encrypt (message : List Nat) (public_key : Nat × Nat) : Option Nat :=
  let n := public_key.1
  let e := public_key.2
  let message_int := bytesToNat message
  if message_int ≥ n then none
  else some (message_int ^ e % n)

/-- Embedding of `rsa_codec.rsa_decrypt`: compute `pow(c, d, n)`,
re-encode as minimal big-endian bytes, and decode as UTF-8 (returning the
byte list of the decoded text, `none` on a decode error). -/
def rsa_decrypt (ciphertext : Nat) (private_key : Nat × Nat) : Option (List Nat) :=
  let n := private_key.1
  let d := private_key.2
  let message_int := ciphertext ^ d % n
  let message_bytes := natToBytes message_int
  if validUtf8 message_bytes then some message_bytes else none

/-- C8: `rsa_encrypt` raises the capacity error exactly when the message
integer reaches the modulus, and otherwise returns exactly
`pow(m, e, n)` — never a truncated message. -/
theorem rsa_encrypt_capacity_spec (message : List Nat) (n e : Nat) :
    (rsa_encrypt message (n, e) = none ↔ n ≤ bytesToNat message) ∧
    (bytesToNat message < n →
      rsa_encrypt message (n, e) = some (bytesToNat message ^ e % n)) := by
  unfold rsa_encrypt
  constructor
  · by_cases h : bytesToNat message ≥ n
    · rw [if_pos h]
      simpa using h
    · rw [if_neg h]
      simp
      omega
  · intro h
    rw [if_neg (by omega)]

/-- Witness for C8 on the textbook fixture: the byte `[65]` (the text
`"A"`) under the public key `(3233, 17)` encrypts to `2790`. -/
theorem rsa_encrypt_capacity_spec_witness : rsa_encrypt [65] (3233, 17) = some 2790 := by
  have h := (rsa_encrypt_capacity_spec [65] 3233 17).2 (by decide)
  rw [h]
  decide

/-- Evaluation of `validUtf8` on the empty byte string. -/
theorem validUtf8_nil : validUtf8 [] = true := rfl

/-- Evaluation of `rsa_decrypt` at ciphertext `0` under `(143, 113)`:
the recovered integer is `0`, whose minimal byte encoding is empty, and
the empty byte string decodes to the empty text. -/
theorem rsa_decrypt_zero_143 : rsa_decrypt 0 (143, 113) = some [] := by
  unfold rsa_decrypt natToBytes
  norm_num [validUtf8_nil]

/-- Evaluation of `rsa_encrypt` on the single zero byte under
`(143, 65537)`. -/
theorem rsa_encrypt_zero_143 : rsa_encrypt [0] (143, 65537) = some 0 := by
  have h : bytesToNat [0] = 0 := rfl
  unfold rsa_encrypt
  rw [h, if_neg (by norm_num), zero_pow (by norm_num), Nat.zero_mod]

/-- C1: the round-trip `rsa_decrypt(rsa_encrypt(t, pub), priv) = t`
fails on the code for the valid UTF-8 text `"\x00"` (the single byte
`0`), whose integer encoding `0` is below the modulus: with the
reachable 8-bit key pair `((143, 65537), (143, 113))` the decryption
returns the empty text, because the minimal re-encoding of the recovered
integer drops the leading zero byte.  The spec itself flags this as a
latent bug of the implementation. -/
theorem roundtrip_drops_leading_zero_byte :
    RsaKeys.IsGeneratedPrime 4 11 ∧ RsaKeys.IsGeneratedPrime 4 13 ∧ (13 : Nat) ≠ 11 ∧
    RsaKeys.keypairFrom 11 13 = some ((143, 65537), (143, 113)) ∧
    validUtf8 [0] = true ∧ bytesToNat [0] < 143 ∧
    rsa_encrypt [0] (143, 65537) = some 0 ∧
    rsa_decrypt 0 (143, 113) = some [] ∧ ([] : List Nat) ≠ [0] :=
  ⟨RsaKeys.isGeneratedPrime_4_11, RsaKeys.isGeneratedPrime_4_13, by norm_num,
    RsaKeys.keypairFrom_11_13, by decide, by decide, rsa_encrypt_zero_143,
    rsa_decrypt_zero_143, by decide⟩

end RsaCodec

namespace RsaKeys

/-- Decimal digit character `'0' + d`, as Python's integer formatting
produces. -/
def digitCharOf (d : Nat) : Char := Char.ofNat (48 + d)

/-- Decimal representation of a natural number, most significant digit
first, as the f-string `f"{n}"` renders a non-negative integer. -/
def natChars (n : Nat) : List Char :=
  if n < 10 then [digitCharOf n]
  else natChars (n / 10) ++ [digitCharOf (n % 10)]
termination_by n
decreasing_by exact Nat.div_lt_self (by omega) (by norm_num)

/-- Decimal representation of an integer, with a leading minus sign for
negative values, as `f"{n}"` renders a Python `int`. -/
def intChars : Int → List Char
  | .ofNat m => natChars m
  | .negSucc m => '-' :: natChars (m + 1)

/-- Model of Python `int()` applied to a stripped line of digits: every
character must be a decimal digit, and the digits are folded into the
value. -/
def parseNat? (cs : List Char) : Option Nat :=
  if cs ≠ [] ∧ cs.all Char.isDigit then
    some (cs.foldl (fun n c => n * 10 + (c.toNat - 48)) 0)
  else none

/-- Model of Python `int()` on a stripped line: an optional leading
minus sign followed by decimal digits. -/
def parseInt? (cs : List Char) : Option Int :=
  if cs.head? = some '-' then (parseNat? cs.tail).map (fun n => -(n : Int))
  else (parseNat? cs).map (fun n => (n : Int))

/-- Python's default `str.strip()` whitespace alphabet. -/
def isPySpace (c : Char) : Bool :=
  c == ' ' || c == '\t' || c == '\n' || c == '\r' || c == '\x0b' || c == '\x0c'

/-- Model of `line.strip()`. -/
def pyStrip (cs : List Char) : List Char :=
  ((cs.dropWhile isPySpace).reverse.dropWhile isPySpace).reverse

/-- Splitting file content at newline characters; `readlines` followed
by `strip` on each line behaves like this split followed by `pyStrip`. -/
def splitLines : List Char → List (List Char)
  | [] => [[]]
  | c :: rest =>
    if c = '\n' then [] :: splitLines rest
    else
      match splitLines rest with
      | [] => [[c]]
      | l :: ls => (c :: l) :: ls

/-- File store state: a map from file paths to file contents.  Directory
creation by `os.makedirs` is irrelevant to the contents and is not
modelled. -/
abbrev Store := String → Option (List Char)

/-- The store with no key files. -/
def emptyStore : Store := fun _ => none

/-- Result of a store operation: a value or a raised error message, in
both cases together with the file-store state at that point (a Python
exception does not roll back earlier writes). -/
inductive StoreResult (α : Type) where
  | ok (val : α) (store : Store)
  | error (msg : String) (store : Store)

/-- Path built by `_get_key_paths` for the public artifact. -/
def publicPath (user_id directory : String) : String :=
  directory ++ "/" ++ user_id ++ "_public.bin"

/-- Path built by `_get_key_paths` for the private artifact. -/
def privatePath (user_id directory : String) : String :=
  directory ++ "/" ++ user_id ++ "_private.bin"

/-- Content written for one key, the two-line format `f"{n}\n{e}\n"`. -/
def keyLines (n e : Int) : List Char :=
  intChars n ++ '\n' :: (intChars e ++ ['\n'])

/-- Embedding of `rsa_keys.save_keys`: check the moduli match (raising
before any write otherwise), then write the public and the private
artifact. -/
def save_keys (user_id : String) (public_key private_key : Int × Int)
    (directory : String) (s : Store) : StoreResult Unit :=
  if public_key.1 ≠ private_key.1 then
    .error "Public and private keys do not share the same modulus n." s
  else
    let s1 : Store := fun p =>
      if p = publicPath user_id directory then some (keyLines public_key.1 public_key.2)
      else s p
    let s2 : Store := fun p =>
      if p = privatePath user_id directory then some (keyLines private_key.1 private_key.2)
      else s1 p
    .ok () s2

/-- The non-empty stripped lines of a key file, as `load_keys` computes
them. -/
def parsedLines (content : List Char) : List (List Char) :=
  ((splitLines content).map pyStrip).filter (fun l => l ≠ [])

/-- Embedding of `rsa_keys.load_keys`: require both artifacts, parse at
least two numeric lines from each, and require the two moduli to
agree. -/
def load_keys (user_id directory : String) (s : Store) :
    StoreResult ((Int × Int) × (Int × Int)) :=
  match s (publicPath user_id directory), s (privatePath user_id directory) with
  | some cpub, some cpriv =>
    (match parsedLines cpub with
     | l0 :: l1 :: _ =>
       (match parseInt? l0, parseInt? l1 with
        | some n_pub, some e =>
          (match parsedLines cpriv with
           | m0 :: m1 :: _ =>
             (match parseInt? m0, parseInt? m1 with
              | some n_priv, some d =>
                if n_pub ≠ n_priv then
                  .error "Public and private key modulus (n) do not match." s
                else .ok ((n_pub, e), (n_priv, d)) s
              | _, _ => .error "invalid literal for int()" s)
           | _ => .error "Invalid private key file format" s)
        | _, _ => .error "invalid literal for int()" s)
     | _ => .error "Invalid public key file format" s)
  | _, _ => .error "No key files found" s

/-- Embedding of `rsa_keys.keys_exist`. -/
def keys_exist (user_id directory : String) (s : Store) : Bool :=
  (s (publicPath user_id directory)).isSome && (s (privatePath user_id directory)).isSome

/-- Embedding of `rsa_keys.get_or_create_keys`.  The randomly generated
key pair that `generate_keypair(bits)` would produce on this run is
passed in as the oracle argument `gen`. -/
def get_or_create_keys (gen : (Int × Int) × (Int × Int)) (user_id : String)
    (directory : String) (s : Store) : StoreResult ((Int × Int) × (Int × Int)) :=
  if keys_exist user_id directory s then load_keys user_id directory s
  else
    match save_keys user_id gen.1 gen.2 directory s with
    | .ok _ s' => .ok gen s'
    | .error m s' => .error m s'

end RsaKeys

namespace RsaKeys

/-- Character facts about decimal digit characters. -/
theorem digitCharOf_props {d : Nat} (hd : d < 10) :
    (digitCharOf d).isDigit = true ∧ (digitCharOf d).toNat = 48 + d ∧
    digitCharOf d ≠ '-' ∧ digitCharOf d ≠ '\n' ∧ isPySpace (digitCharOf d) = false := by
  interval_cases d <;> exact ⟨by decide, by decide, by decide, by decide, by decide⟩

/-- Unfolding of `natChars` on a single digit. -/
theorem natChars_lt (n : Nat) (h : n < 10) : natChars n = [digitCharOf n] := by
  conv_lhs => rw [natChars]
  rw [if_pos h]

/-- Unfolding of `natChars` on a multi-digit number. -/
theorem natChars_ge (n : Nat) (h : ¬n < 10) :
    natChars n = natChars (n / 10) ++ [digitCharOf (n % 10)] := by
  conv_lhs => rw [natChars]
  rw [if_neg h]

/-- Every character of `natChars` is a decimal digit character. -/
theorem natChars_mem (n : Nat) : ∀ c ∈ natChars n, ∃ d, d < 10 ∧ c = digitCharOf d := by
  induction n using Nat.strong_induction_on with
  | _ n ih =>
    by_cases h : n < 10
    · rw [natChars_lt n h]
      intro c hc
      simp only [List.mem_singleton] at hc
      exact ⟨n, h, hc⟩
    · rw [natChars_ge n h]
      intro c hc
      rcases List.mem_append.mp hc with hc1 | hc2
      · exact ih (n / 10) (Nat.div_lt_self (by omega) (by norm_num)) c hc1
      · simp only [List.mem_singleton] at hc2
        exact ⟨n % 10, Nat.mod_lt n (by norm_num), hc2⟩

/-- The decimal representation is never empty. -/
theorem natChars_ne_nil (n : Nat) : natChars n ≠ [] := by
  by_cases h : n < 10
  · rw [natChars_lt n h]
    simp
  · rw [natChars_ge n h]
    simp

/-- The first character of `natChars` is a decimal digit character. -/
theorem natChars_head_digit (n : Nat) :
    ∃ d, d < 10 ∧ (natChars n).head? = some (digitCharOf d) := by
  by_cases h : n < 10
  · rw [natChars_lt n h]
    exact ⟨n, h, rfl⟩
  · rw [natChars_ge n h]
    cases hxs : natChars (n / 10) with
    | nil => exact absurd hxs (natChars_ne_nil _)
    | cons a t =>
      have ha : a ∈ natChars (n / 10) := by rw [hxs]; exact List.mem_cons_self a t
      obtain ⟨d, hd, rfl⟩ := natChars_mem (n / 10) a ha
      exact ⟨d, hd, rfl⟩

/-- Folding the parser accumulator over `natChars n` recovers `n`. -/
theorem natChars_foldl (n : Nat) : ∀ a : Nat,
    (natChars n).foldl (fun acc c => acc * 10 + (c.toNat - 48)) a =
      a * 10 ^ (natChars n).length + n := by
  induction n using Nat.strong_induction_on with
  | _ n ih =>
    intro a
    by_cases h : n < 10
    · rw [natChars_lt n h]
      simp only [List.foldl_cons, List.foldl_nil, List.length_singleton, pow_one]
      rw [(digitCharOf_props h).2.1]
      omega
    · rw [natChars_ge n h]
      rw [List.foldl_append, List.length_append]
      rw [ih (n / 10) (Nat.div_lt_self (by omega) (by norm_num)) a]
      simp only [List.foldl_cons, List.foldl_nil, List.length_singleton]
      rw [(digitCharOf_props (Nat.mod_lt n (by norm_num))).2.1]
      have hdm : 10 * (n / 10) + n % 10 = n := Nat.div_add_mod n 10
      calc (a * 10 ^ (natChars (n / 10)).length + n / 10) * 10 + (48 + n % 10 - 48)
          = a * (10 ^ (natChars (n / 10)).length * 10) + (10 * (n / 10) + n % 10) := by
            have : 48 + n % 10 - 48 = n % 10 := by omega
            rw [this]; ring
        _ = a * 10 ^ ((natChars (n / 10)).length + 1) + n := by rw [hdm, ← pow_succ]

/-- All characters of `natChars` pass `Char.isDigit`. -/
theorem natChars_all_digits (n : Nat) : (natChars n).all Char.isDigit = true := by
  rw [List.all_eq_true]
  intro c hc
  obtain ⟨d, hd, rfl⟩ := natChars_mem n c hc
  exact (digitCharOf_props hd).1

/-- Decimal print-parse round trip on natural numbers. -/
theorem parseNat?_natChars (n : Nat) : parseNat? (natChars n) = some n := by
  unfold parseNat?
  rw [if_pos ⟨natChars_ne_nil n, natChars_all_digits n⟩, natChars_foldl n 0]
  simp

/-- Decimal print-parse round trip on integers, the correctness of the
`f"{n}"` / `int()` pair used by the key store. -/
theorem parseInt?_intChars (z : Int) : parseInt? (intChars z) = some z := by
  cases z with
  | ofNat m =>
    show parseInt? (natChars m) = some (Int.ofNat m)
    unfold parseInt?
    obtain ⟨d, hd, hhead⟩ := natChars_head_digit m
    rw [if_neg (by
      rw [hhead]
      simp only [Option.some.injEq]
      exact (digitCharOf_props hd).2.2.1)]
    rw [parseNat?_natChars]
    simp [Int.ofNat_eq_natCast]
  | negSucc m =>
    show parseInt? ('-' :: natChars (m + 1)) = some (Int.negSucc m)
    unfold parseInt?
    simp only [List.head?_cons, List.tail_cons]
    rw [if_pos trivial, parseNat?_natChars]
    simp [Int.negSucc_eq]

/-- Stripping is the identity on lines without whitespace. -/
theorem pyStrip_noop (cs : List Char) (h : ∀ c ∈ cs, isPySpace c = false) :
    pyStrip cs = cs := by
  unfold pyStrip
  have h1 : cs.dropWhile isPySpace = cs := by
    cases cs with
    | nil => rfl
    | cons c rest =>
      rw [List.dropWhile_cons, if_neg (by simp [h c (List.mem_cons_self c rest)])]
  rw [h1]
  have h2 : cs.reverse.dropWhile isPySpace = cs.reverse := by
    cases hrev : cs.reverse with
    | nil => rfl
    | cons c rest =>
      have hc : c ∈ cs := by
        rw [← List.mem_reverse, hrev]
        exact List.mem_cons_self c rest
      rw [List.dropWhile_cons, if_neg (by simp [h c hc])]
  rw [h2, List.reverse_reverse]

/-- Characters of `intChars` are either the minus sign or digits. -/
theorem intChars_mem (z : Int) :
    ∀ c ∈ intChars z, c = '-' ∨ ∃ d, d < 10 ∧ c = digitCharOf d := by
  cases z with
  | ofNat m => exact fun c hc => Or.inr (natChars_mem m c hc)
  | negSucc m =>
    intro c hc
    rcases List.mem_cons.mp hc with rfl | hc2
    · exact Or.inl rfl
    · exact Or.inr (natChars_mem (m + 1) c hc2)

/-- The decimal representation contains no newline. -/
theorem intChars_no_newline (z : Int) : '\n' ∉ intChars z := by
  intro h
  rcases intChars_mem z _ h with h1 | ⟨d, hd, h2⟩
  · exact absurd h1 (by decide)
  · exact (digitCharOf_props hd).2.2.2.1 h2.symm

/-- The decimal representation contains no whitespace. -/
theorem intChars_not_space (z : Int) : ∀ c ∈ intChars z, isPySpace c = false := by
  intro c hc
  rcases intChars_mem z _ hc with rfl | ⟨d, hd, rfl⟩
  · decide
  · exact (digitCharOf_props hd).2.2.2.2

/-- The decimal representation is never empty. -/
theorem intChars_ne_nil (z : Int) : intChars z ≠ [] := by
  cases z with
  | ofNat m => exact natChars_ne_nil m
  | negSucc m => simp [intChars]

/-- Unfolding of `splitLines` at a newline. -/
theorem splitLines_newline (rest : List Char) :
    splitLines ('\n' :: rest) = [] :: splitLines rest := by
  rw [splitLines, if_pos rfl]

/-- Unfolding of `splitLines` at an ordinary character. -/
theorem splitLines_other (c : Char) (rest : List Char) (hc : c ≠ '\n') :
    splitLines (c :: rest) =
      (match splitLines rest with
       | [] => [[c]]
       | l :: ls => (c :: l) :: ls) := by
  rw [splitLines, if_neg hc]

/-- Splitting content assembled from a newline-free line and a tail. -/
theorem splitLines_append (xs ys : List Char) (h : '\n' ∉ xs) :
    splitLines (xs ++ '\n' :: ys) = xs :: splitLines ys := by
  induction xs with
  | nil => exact splitLines_newline ys
  | cons c rest ih =>
    simp only [List.mem_cons, not_or] at h
    rw [List.cons_append, splitLines_other c _ (Ne.symm h.1), ih h.2]

/-- The parsed lines of a written key file are exactly the two numbers'
decimal representations. -/
theorem parsedLines_keyLines (n e : Int) :
    parsedLines (keyLines n e) = [intChars n, intChars e] := by
  unfold parsedLines keyLines
  rw [splitLines_append _ _ (intChars_no_newline n),
    splitLines_append _ _ (intChars_no_newline e)]
  rw [show splitLines [] = [[]] from rfl]
  rw [List.map_cons, List.map_cons, List.map_cons, List.map_nil]
  rw [pyStrip_noop _ (intChars_not_space n), pyStrip_noop _ (intChars_not_space e)]
  rw [show pyStrip ([] : List Char) = [] from rfl]
  rw [List.filter_cons_of_pos (by simp [intChars_ne_nil n]),
    List.filter_cons_of_pos (by simp [intChars_ne_nil e]),
    List.filter_cons_of_neg (by simp)]
  rfl

/-- The two artifact paths of one user never collide. -/
theorem publicPath_ne_privatePath (user_id directory : String) :
    publicPath user_id directory ≠ privatePath user_id directory := by
  intro h
  unfold publicPath privatePath at h
  have hd := congrArg String.data h
  simp only [String.data_append, List.append_assoc] at hd
  have h1 := List.append_cancel_left hd
  have h2 := List.append_cancel_left h1
  have h3 := List.append_cancel_left h2
  exact absurd h3 (by decide)

end RsaKeys

namespace RsaKeys

/-- Explicit form of a successful `save_keys` run: the error branch is
skipped because the moduli agree, and the resulting store holds both
artifacts. -/
theorem save_keys_ok (user_id directory : String) (n e d : Int) (s : Store) :
    save_keys user_id (n, e) (n, d) directory s = .ok () (fun p =>
      if p = privatePath user_id directory then some (keyLines n d)
      else if p = publicPath user_id directory then some (keyLines n e) else s p) := by
  unfold save_keys
  rw [if_neg (by simp)]

/-- Loading from a store holding correctly written artifacts returns
exactly the written key pair. -/
theorem load_keys_written (user_id directory : String) (n e d : Int) (s : Store)
    (hpub : s (publicPath user_id directory) = some (keyLines n e))
    (hpriv : s (privatePath user_id directory) = some (keyLines n d)) :
    load_keys user_id directory s = .ok ((n, e), (n, d)) s := by
  unfold load_keys
  rw [hpub, hpriv]
  simp only []
  rw [parsedLines_keyLines, parsedLines_keyLines]
  simp only []
  rw [parseInt?_intChars, parseInt?_intChars, parseInt?_intChars]
  simp only []
  rw [if_neg (by simp)]

/-- C9: the key store round-trips: saving a key pair with matching
moduli succeeds and an immediate load returns exactly the saved pair;
consequently two sequential `get_or_create_keys` calls (starting from an
empty store, with arbitrary generator outcomes) return identical key
pairs. -/
theorem store_roundtrip_and_idempotent (user_id directory : String)
    (n e d gn ge gd : Int) (s : Store) :
    (∃ s', save_keys user_id (n, e) (n, d) directory s = .ok () s' ∧
        load_keys user_id directory s' = .ok ((n, e), (n, d)) s') ∧
    (∃ s1, get_or_create_keys ((n, e), (n, d)) user_id directory emptyStore =
        .ok ((n, e), (n, d)) s1 ∧
      get_or_create_keys ((gn, ge), (gn, gd)) user_id directory s1 =
        .ok ((n, e), (n, d)) s1) := by
  have hlookup_pub : ∀ s0 : Store,
      (fun p => if p = privatePath user_id directory then some (keyLines n d)
        else if p = publicPath user_id directory then some (keyLines n e) else s0 p)
        (publicPath user_id directory) = some (keyLines n e) := by
    intro s0
    simp only []
    rw [if_neg (publicPath_ne_privatePath user_id directory), if_pos trivial]
  have hlookup_priv : ∀ s0 : Store,
      (fun p => if p = privatePath user_id directory then some (keyLines n d)
        else if p = publicPath user_id directory then some (keyLines n e) else s0 p)
        (privatePath user_id directory) = some (keyLines n d) := by
    intro s0
    simp only []
    rw [if_pos trivial]
  constructor
  · exact ⟨_, save_keys_ok user_id directory n e d s,
      load_keys_written user_id directory n e d _ (hlookup_pub s) (hlookup_priv s)⟩
  · refine ⟨(fun p => if p = privatePath user_id directory then some (keyLines n d)
      else if p = publicPath user_id directory then some (keyLines n e)
      else emptyStore p), ?_, ?_⟩
    · unfold get_or_create_keys
      rw [if_neg (by simp [keys_exist, emptyStore])]
      rw [save_keys_ok user_id directory n e d emptyStore]
    · unfold get_or_create_keys
      rw [if_pos (by
        unfold keys_exist
        rw [hlookup_pub emptyStore, hlookup_priv emptyStore]
        rfl)]
      exact load_keys_written user_id directory n e d _
        (hlookup_pub emptyStore) (hlookup_priv emptyStore)

/-- C10: when the two keys' moduli disagree, `save_keys` raises the
mismatch error before performing any write, and the file-store state in
the result is exactly the initial state — neither artifact is created or
modified. -/
theorem save_keys_mismatch_preserves_store (user_id directory : String)
    (public_key private_key : Int × Int) (s : Store)
    (hmm : public_key.1 ≠ private_key.1) :
    save_keys user_id public_key private_key directory s =
      .error "Public and private keys do not share the same modulus n." s := by
  unfold save_keys
  rw [if_pos hmm]

/-- Witness for C10 at a concrete mismatched pair. -/
theorem save_keys_mismatch_preserves_store_witness :
    save_keys "alice" (3, 5) (4, 7) "keys" emptyStore =
      .error "Public and private keys do not share the same modulus n." emptyStore :=
  save_keys_mismatch_preserves_store "alice" "keys" (3, 5) (4, 7) emptyStore (by decide)

end RsaKeys
